import Mathlib

/-!
# Formal model of the `ec_ws.c` elliptic-curve engine

A shallow embedding of the short-Weierstrass elliptic-curve arithmetic core
(`src/ec_ws.c`): complete projective addition/doubling formulae
(Renes-Costello-Batina, algorithms 4, 5 and 6 for a = -3), projective-to-affine
conversion, the windowed scalar ladder, the P-256 generator comb path, scalar
blinding, and the point/context lifecycle functions.

Field elements live in `ZMod p`.  The external Montgomery context provides
add/sub/mul on residues; since the Montgomery representation is a ring
isomorphism on the represented values, `mont_add`/`mont_sub`/`mont_mult`
are modelled directly as `+`/`-`/`*` in `ZMod p`.  Allocation never fails in
the model, so `ERR_MEMORY` paths are not represented.
-/

namespace ECWS

/-! ## Definitions: the shallow embedding of `ec_ws.c` -/

/-- A projective point (X, Y, Z) over `ZMod p`, mirroring the three coordinate
words `x`, `y`, `z` of an `EcPoint`.  It represents the affine point
(X/Z, Y/Z) when Z is nonzero, and the point-at-infinity when Z = 0. -/
structure ProjPoint (p : ℕ) where
  X : ZMod p
  Y : ZMod p
  Z : ZMod p
deriving DecidableEq


/-- Modelled from the spec: the error codes of `common.h` (not under `src/`),
named in spec section 6.3, as a discriminated enumeration.  `ok` is the zero
return code; all other constructors are the distinct nonzero error codes. -/
inductive EcRes where
  | ok
  | errNull
  | errNotEnoughData
  | errValue
  | errEcPoint
  | errEcCurve
  | errMemory
deriving DecidableEq


/-- The canonical point-at-infinity representation (0, 1, 0), as written by
`mont_set(x,0) / mont_set(y,1) / mont_set(z,0)` in the source. -/
def pai {p : ℕ} : ProjPoint p := ⟨0, 1, 0⟩


/-- Modelled from the spec: `mont_inv_prime` (external Montgomery context,
not under `src/`) computes the modular inverse by Fermat's little theorem,
z^(p-2) mod p. -/
def mont_inv_prime {p : ℕ} (z : ZMod p) : ZMod p := z ^ (p - 2)


/-- Transcription of `ec_projective_to_affine`: if Z = 0 the output is
(0, 0); otherwise A = mont_inv_prime(Z) and the output is (X*A, Y*A). -/
def ec_projective_to_affine {p : ℕ} (P : ProjPoint p) : ZMod p × ZMod p :=
  if P.Z = 0 then (0, 0)
  else (P.X * mont_inv_prime P.Z, P.Y * mont_inv_prime P.Z)


/-- Transcription of `ec_full_double` (algorithm 6 of Renes-Costello-Batina,
curve y² = x³ - 3x + b), step for step; the let-rebindings mirror the
in-place updates of the C temporaries. -/
def ec_full_double {p : ℕ} (P : ProjPoint p) (b : ZMod p) : ProjPoint p :=
  let x := P.X
  let y := P.Y
  let z := P.Z
  let t0 := x * x                -- 1
  let t1 := y * y
  let t2 := z * z
  let t3 := x * y                -- 4
  let t3 := t3 + t3
  let z3 := x * z
  let z3 := z3 + z3              -- 7
  let y3 := b * t2
  let y3 := y3 - z3
  let x3 := y3 + y3              -- 10
  let y3 := x3 + y3
  let x3 := t1 - y3
  let y3 := t1 + y3              -- 13
  let y3 := x3 * y3
  let x3 := x3 * t3
  let t3 := t2 + t2              -- 16
  let t2 := t2 + t3
  let z3 := b * z3
  let z3 := z3 - t2              -- 19
  let z3 := z3 - t0
  let t3 := z3 + z3
  let z3 := z3 + t3              -- 22
  let t3 := t0 + t0
  let t0 := t3 + t0
  let t0 := t0 - t2              -- 25
  let t0 := t0 * z3
  let y3 := y3 + t0
  let t0 := y * z                -- 28
  let t0 := t0 + t0
  let z3 := t0 * z3
  let x3 := x3 - z3              -- 31
  let z3 := t0 * t1
  let z3 := z3 + z3
  let z3 := z3 + z3              -- 34
  ⟨x3, y3, z3⟩


/-- Transcription of `ec_mix_add` (algorithm 5 of Renes-Costello-Batina):
mixed addition of a projective point and an affine point (x2, y2) with
implicit z2 = 1.  When (x2, y2) = (0, 0) — the affine encoding of the
point-at-infinity — the function returns the first operand unchanged
(the early `mont_copy` return of the source). -/
def ec_mix_add {p : ℕ} (P : ProjPoint p) (x2 y2 : ZMod p) (b : ZMod p) :
    ProjPoint p :=
  if x2 = 0 ∧ y2 = 0 then
    ⟨P.X, P.Y, P.Z⟩
  else
    let x1 := P.X
    let y1 := P.Y
    let z1 := P.Z
    let t0 := x1 * x2            -- 1
    let t1 := y1 * y2
    let t3 := x2 + y2
    let t4 := x1 + y1            -- 4
    let t3 := t3 * t4
    let t4 := t0 + t1
    let t3 := t3 - t4            -- 7
    let t4 := y2 * z1
    let t4 := t4 + y1
    let y3 := x2 * z1            -- 10
    let y3 := y3 + x1
    let z3 := b * z1
    let x3 := y3 - z3            -- 13
    let z3 := x3 + x3
    let x3 := x3 + z3
    let z3 := t1 - x3            -- 16
    let x3 := t1 + x3
    let y3 := b * y3
    let t1 := z1 + z1            -- 19
    let t2 := t1 + z1
    let y3 := y3 - t2
    let y3 := y3 - t0            -- 22
    let t1 := y3 + y3
    let y3 := t1 + y3
    let t1 := t0 + t0            -- 25
    let t0 := t1 + t0
    let t0 := t0 - t2
    let t1 := t4 * y3            -- 28
    let t2 := t0 * y3
    let y3 := x3 * z3
    let y3 := y3 + t2            -- 31
    let x3 := t3 * x3
    let x3 := x3 - t1
    let z3 := t4 * z3            -- 34
    let t1 := t3 * t0
    let z3 := z3 + t1
    ⟨x3, y3, z3⟩


/-- Transcription of `ec_full_add` (algorithm 4 of Renes-Costello-Batina):
complete projective addition of two projective points. -/
def ec_full_add {p : ℕ} (P Q : ProjPoint p) (b : ZMod p) : ProjPoint p :=
  let x1 := P.X
  let y1 := P.Y
  let z1 := P.Z
  let x2 := Q.X
  let y2 := Q.Y
  let z2 := Q.Z
  let t0 := x1 * x2              -- 1
  let t1 := y1 * y2
  let t2 := z1 * z2
  let t3 := x1 + y1              -- 4
  let t4 := x2 + y2
  let t3 := t3 * t4
  let t4 := t0 + t1              -- 7
  let t3 := t3 - t4
  let t4 := y1 + z1
  let x3 := y2 + z2              -- 10
  let t4 := t4 * x3
  let x3 := t1 + t2
  let t4 := t4 - x3              -- 13
  let x3 := x1 + z1
  let y3 := x2 + z2
  let x3 := x3 * y3              -- 16
  let y3 := t0 + t2
  let y3 := x3 - y3
  let z3 := b * t2               -- 19
  let x3 := y3 - z3
  let z3 := x3 + x3
  let x3 := x3 + z3              -- 22
  let z3 := t1 - x3
  let x3 := t1 + x3
  let y3 := b * y3               -- 25
  let t1 := t2 + t2
  let t2 := t1 + t2
  let y3 := y3 - t2              -- 28
  let y3 := y3 - t0
  let t1 := y3 + y3
  let y3 := t1 + y3              -- 31
  let t1 := t0 + t0
  let t0 := t1 + t0
  let t0 := t0 - t2              -- 34
  let t1 := t4 * y3
  let t2 := t0 * y3
  let y3 := x3 * z3              -- 37
  let y3 := y3 + t2
  let x3 := t3 * x3
  let x3 := x3 - t1              -- 40
  let z3 := t4 * z3
  let t1 := t3 * t0
  let z3 := z3 + t1              -- 43
  ⟨x3, y3, z3⟩


/-- The projective curve membership relation for y² = x³ - 3x + b: the
global invariant of the spec, "Y² ≡ X³ − 3X·Z² + b·Z³" in projective form.
A point with Z = 0 satisfies it exactly when X³ = 0. -/
def onCurve {p : ℕ} (b : ZMod p) (P : ProjPoint p) : Prop :=
  P.Y ^ 2 * P.Z = P.X ^ 3 - 3 * P.X * P.Z ^ 2 + b * P.Z ^ 3


instance {p : ℕ} (b : ZMod p) (P : ProjPoint p) : Decidable (onCurve b P) :=
  inferInstanceAs (Decidable (_ = _))


/-- The integer value of a big-endian byte string. -/
def beVal (l : List ℕ) : ℕ := l.foldl (fun a byte => 256 * a + byte) 0


/-- Auxiliary fuel-based base-`base` expansion (least-significant digit
first); the fuel argument only forces termination. -/
def digitsLEAux (base : ℕ) : ℕ → ℕ → List ℕ
  | 0, _ => []
  | _ + 1, 0 => []
  | fuel + 1, n + 1 => (n + 1) % base :: digitsLEAux base fuel ((n + 1) / base)


/-- The base-`base` digits of `n`, least significant first (empty for 0). -/
def digitsLE (base n : ℕ) : List ℕ := digitsLEAux base (n + 1) n


/-- Modelled from the spec: the left-to-right bit-window iterator over a
big-endian scalar (spec section 4.C) skips leading zeros and emits
⌈bitlen/w⌉ windows of w bits, the first window possibly short; this is the
base-2^w expansion of the scalar's value, most significant digit first. -/
def bitWindowLR (w : ℕ) (n : ℕ) : List ℕ := (digitsLE (2 ^ w) n).reverse


/-- Modelled from the spec: the right-to-left bit-window iterator (spec
section 4.C) emits the same ⌈bitlen/w⌉ windows least significant first. -/
def bitWindowRL (w : ℕ) (n : ℕ) : List ℕ := digitsLE (2 ^ w) n


/-- The big-endian encoding of `v` on exactly `len` bytes (value truncated
to the low 8·len bits), as produced by `words_to_bytes`. -/
def natToBytesBE : ℕ → ℕ → List ℕ
  | 0, _ => []
  | len + 1, v => natToBytesBE len (v / 256) ++ [v % 256]


/-- `WINDOW_SIZE_BITS` of the source: window width of the generic ladder. -/
def WINDOW_SIZE_BITS : ℕ := 4


/-- The precomputed window of `ec_scalar`: entry 0 is the canonical
point-at-infinity, entry 1 is the input point, and entry i (2 ≤ i < 16) is
entry (i-1) plus the input point, via `ec_mix_add` when the input Z
coordinate is one and `ec_full_add` otherwise, exactly as in the build
loop of `ec_scalar`.  The scatter/gather pair over `ProtMemory` is
modelled as the identity on records (the spec's gather contract). -/
def ec_scalar_window {p : ℕ} (P : ProjPoint p) (b : ZMod p) : ℕ → ProjPoint p
  | 0 => pai
  | 1 => P
  | n + 2 =>
    if P.Z = 1 then
      ec_mix_add (ec_scalar_window P b (n + 1)) P.X P.Y b
    else
      ec_full_add (ec_scalar_window P b (n + 1)) P b


/-- Transcription of `ec_scalar`: the fixed-window left-to-right ladder.
Starting from the point-at-infinity, for every window digit the accumulator
is doubled `WINDOW_SIZE_BITS` times and the gathered window entry is added
with `ec_full_add`.  Leading zero bytes of the exponent are skipped by the
source before building the iterator; both the skip and the iterator are
absorbed into `bitWindowLR` of the exponent's value.  Allocation and
scatter failures are not modelled. -/
def ec_scalar {p : ℕ} (P : ProjPoint p) (b : ZMod p) (exp : List ℕ) :
    ProjPoint p :=
  let w := ec_scalar_window P b
  let digits := bitWindowLR WINDOW_SIZE_BITS (beVal exp)
  digits.foldl
    (fun acc d =>
      let acc := ec_full_double acc b
      let acc := ec_full_double acc b
      let acc := ec_full_double acc b
      let acc := ec_full_double acc b
      ec_full_add acc (w d) b)
    pai


/-- An EC point: a context reference (by identity) plus the projective
coordinates. -/
structure EcPoint (p : ℕ) where
  ctxId : ℕ
  X : ZMod p
  Y : ZMod p
  Z : ZMod p
deriving DecidableEq


/-- Transcription of `ec_ws_cmp` (NULL arguments are not representable in
the model): a cross-context comparison signals `ERR_EC_CURVE`; if either
point has Z = 0 the result is 0 exactly when both do; otherwise the points
are brought to the same denominator and compared by
X1·Z2 = X2·Z1 and Y1·Z2 = Y2·Z1. -/
def ec_ws_cmp {p : ℕ} (ecp1 ecp2 : EcPoint p) : EcRes :=
  if ecp1.ctxId ≠ ecp2.ctxId then .errEcCurve
  else if ecp1.Z = 0 ∨ ecp2.Z = 0 then
    if ecp1.Z = 0 ∧ ecp2.Z = 0 then .ok else .errValue
  else if ecp1.X * ecp2.Z = ecp2.X * ecp1.Z ∧
      ecp1.Y * ecp2.Z = ecp2.Y * ecp1.Z then .ok
  else .errValue


/-- Transcription of `ec_ws_copy`: for non-NULL arguments it
unconditionally overwrites the destination's context reference and all
three coordinates with the source's and returns 0; no cross-context check
is made. -/
def ec_ws_copy {p : ℕ} (ecp1 ecp2 : EcPoint p) : EcRes × EcPoint p :=
  (.ok, { ecp1 with ctxId := ecp2.ctxId, X := ecp2.X, Y := ecp2.Y, Z := ecp2.Z })


/-- Transcription of the point-construction logic of `ec_ws_new_point`
after the byte conversions (`mont_from_bytes`) succeed: input (0, 0) is
rewritten to the projective point-at-infinity (0, 1, 0); any other input
is checked against the curve equation — a = y·y against
c = x·x·x − x − x − x + b — and rejected with `ERR_EC_POINT` when the check
fails, in which case the allocated point is freed and the output handle is
set to NULL (modelled by `Except.error`). -/
def ec_ws_new_point {p : ℕ} (x y b : ZMod p) : Except EcRes (ProjPoint p) :=
  if x = 0 ∧ y = 0 then
    .ok ⟨0, 1, 0⟩
  else
    let a := y * y
    let c := x * x * x - x - x - x + b
    if a = c then .ok ⟨x, y, 1⟩ else .error .errEcPoint


/-- Transcription of the argument validation and order import of
`ec_ws_new_context`.  The three nullable-pointer checks of the source test
only `pec_ctx`, `modulus` and `b`; the `order` pointer is not tested.  The
NULL-ness of each pointer argument is modelled by an `Option`; the later
steps (Montgomery context construction, import of b, order allocation) are
modelled as succeeding, and the value stored in the context's order words
is returned alongside the result code.  When `order` is NULL,
`bytes_to_words` (whose return code the source ignores) writes nothing and
the calloc-initialised order words remain zero. -/
def ec_ws_new_context (pec_ctx : Option Unit) (modulus b : Option (List ℕ))
    (order : Option (List ℕ)) (len : ℕ) : EcRes × Option ℕ :=
  if pec_ctx.isNone || modulus.isNone || b.isNone then (.errNull, none)
  else if len = 0 then (.errNotEnoughData, none)
  else
    match order with
    | none => (.ok, some 0)
    | some ob => (.ok, some (beVal (ob.take len)))


/-- Transcription of `blind_scalar_factor` at the level of the integer
values the word buffers hold: `scalar_words` = ⌈scalar_len/8⌉, the output
buffer holds MAX(order_words+2, scalar_words+2) 64-bit words; the scalar
bytes are loaded into it (`bytes_to_words`), R·order is accumulated on top
(`addmul128` with 128-bit multiplier (R, 0)), the arithmetic truncated to
the buffer width, and the buffer re-encoded big-endian
(`words_to_bytes`).  The word-array codecs live in `endianess.h`, outside
`src/`, and are modelled from the spec by their value semantics.
Allocation failures are not modelled. -/
def blind_scalar_factor (scalar : List ℕ) (R : ℕ) (order : ℕ)
    (order_words : ℕ) : List ℕ :=
  let scalar_words := (scalar.length + 7) / 8
  let blind_scalar_words := max (order_words + 2) (scalar_words + 2)
  natToBytesBE (8 * blind_scalar_words)
    ((beVal scalar + R * order) % 2 ^ (64 * blind_scalar_words))


/-- The EC context: curve parameter b, the value and word count of the
order array, the modulus tag (`modulus_type == ModulusP256`), the
hard-coded Montgomery generator coordinates compared by the fast-path
test, the static P-256 comb-table parameters and contents (`p256_table.c`
is not under `src/`; modelled from the spec as an abstract table of affine
points with its two size constants), and `expand_seed` (`modexp_utils.h`,
not under `src/`; modelled from the spec as an arbitrary seed-to-field
derivation). -/
structure EcContext (p : ℕ) where
  b : ZMod p
  order : ℕ
  orderWords : ℕ
  isP256 : Bool
  montGx : ZMod p
  montGy : ZMod p
  p256WindowSize : ℕ
  p256NTables : ℕ
  p256Table : ℕ → ℕ → ZMod p × ZMod p
  expandSeed : ℕ → ZMod p


/-- Transcription of `ec_scalar_g_p256`: the output coordinates are first
set to the canonical point-at-infinity; then the right-to-left window
iterator is built over the scalar and, when its window count exceeds
`p256_n_tables`, the function returns `ERR_VALUE` — with the output
already overwritten.  Otherwise every window digit gathers an affine
point from the corresponding scattered subtable and accumulates it with
`ec_mix_add`. -/
def ec_scalar_g_p256 {p : ℕ} (ctx : EcContext p) (exp : List ℕ) :
    EcRes × ProjPoint p :=
  let A : ProjPoint p := pai
  let digits := bitWindowRL ctx.p256WindowSize (beVal exp)
  if digits.length > ctx.p256NTables then (.errValue, A)
  else
    (.ok, digits.enum.foldl
      (fun acc iw =>
        let xy := ctx.p256Table iw.1 iw.2
        ec_mix_add acc xy.1 xy.2 ctx.b) A)


/-- Transcription of `ec_ws_scalar`: the length check, the P-256 generator
fast path (selected by the modulus tag, the hard-coded Montgomery
generator coordinates and Z = 1), and otherwise the generic ladder — with
coordinate and scalar blinding when the seed is nonzero (the low 32 bits
of the seed are the blinding factor R).  NULL pointers and allocation
failures are not representable, so the `ERR_NULL` and `ERR_MEMORY` paths
are absent. -/
def ec_ws_scalar {p : ℕ} (ctx : EcContext p) (ecp : EcPoint p)
    (k : List ℕ) (seed : ℕ) : EcRes × EcPoint p :=
  if k.length = 0 then (.errNotEnoughData, ecp)
  else if ctx.isP256 ∧ ecp.X = ctx.montGx ∧ ecp.Y = ctx.montGy ∧ ecp.Z = 1 then
    let r := ec_scalar_g_p256 ctx k
    (r.1, { ecp with X := r.2.X, Y := r.2.Y, Z := r.2.Z })
  else if seed ≠ 0 then
    let factor := ctx.expandSeed seed
    let bx := ecp.X * factor
    let bby := ecp.Y * factor
    let bz := ecp.Z * factor
    let blind := blind_scalar_factor k (seed % 2 ^ 32) ctx.order ctx.orderWords
    let r := ec_scalar (⟨bx, bby, bz⟩ : ProjPoint p) ctx.b blind
    (.ok, { ecp with X := r.X, Y := r.Y, Z := r.Z })
  else
    let r := ec_scalar (⟨ecp.X, ecp.Y, ecp.Z⟩ : ProjPoint p) ctx.b k
    (.ok, { ecp with X := r.X, Y := r.Y, Z := r.Z })


/-- A concrete P-256-tagged model context over ZMod 7 for exercising the
generator fast path: one comb subtable of window width 4. -/
def ctxP256test : EcContext 7 where
  b := 0
  order := 5
  orderWords := 1
  isP256 := true
  montGx := 1
  montGy := 2
  p256WindowSize := 4
  p256NTables := 1
  p256Table := fun _ _ => (0, 0)
  expandSeed := fun _ => 0


/-! ## Theorems -/

/-- On the curve, adding a point to itself with algorithm 4 produces exactly
the same projective triple as doubling it with algorithm 6: the X and Y
outputs agree as polynomial identities, and the Z outputs differ by
-6·Y·(curve relation). -/
lemma ec_full_add_self_eq_double {p : ℕ} (b : ZMod p) (P : ProjPoint p)
    (h : onCurve b P) : ec_full_add P P b = ec_full_double P b := by
  obtain ⟨x, y, z⟩ := P
  rw [onCurve] at h
  simp only at h
  simp only [ec_full_add, ec_full_double, ProjPoint.mk.injEq]
  refine ⟨by ring, by ring, by linear_combination (-6 * y) * h⟩


/-- C1.  For every valid projective point P (one satisfying the projective
curve relation, the point-at-infinity included), `ec_full_add P P` and
`ec_full_double P` normalize to the same affine coordinates. -/
theorem full_add_self_matches_double {p : ℕ} (b : ZMod p) (P : ProjPoint p)
    (h : onCurve b P) :
    ec_projective_to_affine (ec_full_add P P b) =
      ec_projective_to_affine (ec_full_double P b) := by
  rw [ec_full_add_self_eq_double b P h]


/-- C1 witness: the point (1, 1, 1) lies on the curve y² = x³ - 3x + 3 over
ZMod 7, and addition-with-itself agrees with doubling there. -/
theorem full_add_self_matches_double_witness :
    onCurve (3 : ZMod 7) ⟨1, 1, 1⟩ ∧
      ec_projective_to_affine (ec_full_add (⟨1, 1, 1⟩ : ProjPoint 7) ⟨1, 1, 1⟩ 3) =
        ec_projective_to_affine (ec_full_double (⟨1, 1, 1⟩ : ProjPoint 7) 3) :=
  ⟨by decide, full_add_self_matches_double 3 ⟨1, 1, 1⟩ (by decide)⟩


/-- C3.  When the affine operand is (0, 0) — the affine encoding of the
point-at-infinity — `ec_mix_add` returns the projective operand unchanged
instead of running the algorithm-5 formula. -/
theorem mix_add_affine_pai {p : ℕ} (P : ProjPoint p) (b : ZMod p) :
    ec_mix_add P 0 0 b = P := by
  simp [ec_mix_add]


/-- Doubling the canonical point-at-infinity representation yields it back
exactly. -/
lemma ec_full_double_pai {p : ℕ} (b : ZMod p) :
    ec_full_double (pai : ProjPoint p) b = pai := by
  simp only [ec_full_double, pai, ProjPoint.mk.injEq]
  refine ⟨by ring, by ring, by ring⟩


/-- Adding the canonical point-at-infinity on the right scales the left
operand by its own Y coordinate. -/
lemma ec_full_add_pai_right {p : ℕ} (P : ProjPoint p) (b : ZMod p) :
    ec_full_add P pai b = ⟨P.Y * P.X, P.Y * P.Y, P.Y * P.Z⟩ := by
  obtain ⟨x, y, z⟩ := P
  simp only [ec_full_add, pai, ProjPoint.mk.injEq]
  refine ⟨by ring, by ring, by ring⟩


/-- Adding the canonical point-at-infinity on the left scales the right
operand by its own Y coordinate. -/
lemma ec_full_add_pai_left {p : ℕ} (Q : ProjPoint p) (b : ZMod p) :
    ec_full_add pai Q b = ⟨Q.Y * Q.X, Q.Y * Q.Y, Q.Y * Q.Z⟩ := by
  obtain ⟨x, y, z⟩ := Q
  simp only [ec_full_add, pai, ProjPoint.mk.injEq]
  refine ⟨by ring, by ring, by ring⟩


/-- Fermat inversion really inverts: for a nonzero z in the prime field,
mont_inv_prime z * z = 1. -/
lemma mont_inv_prime_mul_self {p : ℕ} [Fact p.Prime] {z : ZMod p}
    (hz : z ≠ 0) : mont_inv_prime z * z = 1 := by
  have h2 : 2 ≤ p := (Fact.out : p.Prime).two_le
  rw [mont_inv_prime, ← pow_succ]
  have hp : p - 2 + 1 = p - 1 := by omega
  rw [hp, ZMod.pow_card_sub_one_eq_one hz]


/-- Fermat inversion equals the field inverse on nonzero elements. -/
lemma mont_inv_prime_eq_inv {p : ℕ} [Fact p.Prime] {z : ZMod p}
    (hz : z ≠ 0) : mont_inv_prime z = z⁻¹ :=
  eq_inv_of_mul_eq_one_left (mont_inv_prime_mul_self hz)


/-- Scaling all three projective coordinates by a nonzero factor does not
change the affine output of `ec_projective_to_affine`. -/
lemma ec_projective_to_affine_scale {p : ℕ} [Fact p.Prime]
    (P : ProjPoint p) {c : ZMod p} (hc : c ≠ 0) :
    ec_projective_to_affine ⟨c * P.X, c * P.Y, c * P.Z⟩ =
      ec_projective_to_affine P := by
  by_cases hz : P.Z = 0
  · simp [ec_projective_to_affine, hz]
  · have hcz : c * P.Z ≠ 0 := mul_ne_zero hc hz
    simp only [ec_projective_to_affine, if_neg hcz, if_neg hz]
    rw [mont_inv_prime_eq_inv hcz, mont_inv_prime_eq_inv hz, mul_inv,
      Prod.mk.injEq]
    constructor
    · field_simp
      ring
    · field_simp
      ring


/-- Normalised form of P + pai: it equals the normalised form of P whenever
P is not a point of order two (Z ≠ 0 → Y ≠ 0). -/
lemma add_pai_right_aff {p : ℕ} [Fact p.Prime] (P : ProjPoint p)
    (b : ZMod p) (hY : P.Z ≠ 0 → P.Y ≠ 0) :
    ec_projective_to_affine (ec_full_add P pai b) =
      ec_projective_to_affine P := by
  rw [ec_full_add_pai_right]
  by_cases hz : P.Z = 0
  · simp [ec_projective_to_affine, hz]
  · exact ec_projective_to_affine_scale P (hY hz)


/-- Normalised form of pai + Q: it equals the normalised form of Q whenever
Q is not a point of order two. -/
lemma add_pai_left_aff {p : ℕ} [Fact p.Prime] (Q : ProjPoint p)
    (b : ZMod p) (hY : Q.Z ≠ 0 → Q.Y ≠ 0) :
    ec_projective_to_affine (ec_full_add pai Q b) =
      ec_projective_to_affine Q := by
  rw [ec_full_add_pai_left]
  by_cases hz : Q.Z = 0
  · simp [ec_projective_to_affine, hz]
  · exact ec_projective_to_affine_scale Q (hY hz)


/-- A zero value yields no windows. -/
lemma bitWindowLR_zero (w : ℕ) : bitWindowLR w 0 = [] := rfl


/-- C2 counterexample.  The point (1, 0) lies on the curve
y² = x³ - 3x + 2 over ZMod 7 (it is a point of order two), so
`ec_ws_new_point` accepts it, yet adding the point-at-infinity to it with
`ec_full_add` does not give the point back after normalization: the
formula output is (0, 0, 0), which normalizes to the affine encoding of
the point-at-infinity. -/
theorem identity_laws_counterexample :
    onCurve (2 : ZMod 7) ⟨1, 0, 1⟩ ∧
      ec_projective_to_affine (ec_full_add (⟨1, 0, 1⟩ : ProjPoint 7) pai 2) ≠
        ec_projective_to_affine (⟨1, 0, 1⟩ : ProjPoint 7) := by
  decide


/-- C2 amended.  For every point P that is not of order two (Z ≠ 0 → Y ≠ 0;
automatic on the odd-prime-order curves the engine targets):
P + pai = pai + P = P after normalization, pai + pai = pai exactly,
`ec_scalar` with an all-zero scalar returns the canonical point-at-infinity
exactly, and `ec_scalar` with a scalar of value one returns a
representation of P (equal after normalization). -/
theorem identity_laws_amended {p : ℕ} [Fact p.Prime] (b : ZMod p)
    (P : ProjPoint p) (hY : P.Z ≠ 0 → P.Y ≠ 0) (e0 e1 : List ℕ)
    (h0 : beVal e0 = 0) (h1 : beVal e1 = 1) :
    ec_projective_to_affine (ec_full_add P pai b) =
        ec_projective_to_affine P ∧
      ec_projective_to_affine (ec_full_add pai P b) =
        ec_projective_to_affine P ∧
      ec_full_add (pai : ProjPoint p) pai b = pai ∧
      ec_scalar P b e0 = pai ∧
      ec_projective_to_affine (ec_scalar P b e1) =
        ec_projective_to_affine P := by
  refine ⟨add_pai_right_aff P b hY, add_pai_left_aff P b hY, ?_, ?_, ?_⟩
  · rw [ec_full_add_pai_right]
    simp [pai]
  · simp only [ec_scalar, h0, bitWindowLR_zero, List.foldl_nil]
  · have hd : bitWindowLR WINDOW_SIZE_BITS (beVal e1) = [1] := by
      rw [h1]
      rfl
    simp only [ec_scalar, hd, List.foldl_cons, List.foldl_nil,
      ec_full_double_pai, ec_scalar_window]
    exact add_pai_left_aff P b hY


/-- C2 witness: the amended identity laws hold at the on-curve point
(1, 1, 1) of y² = x³ - 3x + 3 over ZMod 7 with the scalars [0] and [1]. -/
theorem identity_laws_amended_witness :
    ec_projective_to_affine (ec_full_add (⟨1, 1, 1⟩ : ProjPoint 7) pai 3) =
        ec_projective_to_affine (⟨1, 1, 1⟩ : ProjPoint 7) ∧
      ec_projective_to_affine (ec_full_add pai (⟨1, 1, 1⟩ : ProjPoint 7) 3) =
        ec_projective_to_affine (⟨1, 1, 1⟩ : ProjPoint 7) ∧
      ec_full_add (pai : ProjPoint 7) pai 3 = pai ∧
      ec_scalar (⟨1, 1, 1⟩ : ProjPoint 7) 3 [0] = pai ∧
      ec_projective_to_affine (ec_scalar (⟨1, 1, 1⟩ : ProjPoint 7) 3 [1]) =
        ec_projective_to_affine (⟨1, 1, 1⟩ : ProjPoint 7) :=
  @identity_laws_amended 7 ⟨by norm_num⟩ 3 ⟨1, 1, 1⟩ (by decide) [0] [1]
    (by decide) (by decide)


/-- C4.  The projective-to-affine conversion used by `ec_ws_get_xy` and
`ec_ws_normalize` outputs (0, 0) when Z = 0, and otherwise outputs
(X·A, Y·A) where A is the Fermat-little-theorem inverse of Z, which
genuinely inverts Z modulo the prime p. -/
theorem projective_to_affine_spec {p : ℕ} [Fact p.Prime] (P : ProjPoint p) :
    (P.Z = 0 → ec_projective_to_affine P = (0, 0)) ∧
      (P.Z ≠ 0 →
        ec_projective_to_affine P =
            (P.X * mont_inv_prime P.Z, P.Y * mont_inv_prime P.Z) ∧
          mont_inv_prime P.Z * P.Z = 1) := by
  constructor
  · intro hz
    simp [ec_projective_to_affine, hz]
  · intro hz
    exact ⟨by simp [ec_projective_to_affine, hz], mont_inv_prime_mul_self hz⟩


/-- C4 witness: the conversion at the point (3, 4, 2) over ZMod 7 multiplies
by the Fermat inverse of 2, and that inverse times 2 is 1. -/
theorem projective_to_affine_spec_witness :
    ec_projective_to_affine (⟨3, 4, 2⟩ : ProjPoint 7) =
        (3 * mont_inv_prime 2, 4 * mont_inv_prime 2) ∧
      mont_inv_prime (2 : ZMod 7) * 2 = 1 :=
  (@projective_to_affine_spec 7 ⟨by norm_num⟩ ⟨3, 4, 2⟩).2 (by decide)


/-- C5.  For two valid points (any Z = 0 representative has Y ≠ 0, as every
point-at-infinity produced by the engine does) of the same context,
`ec_ws_cmp` returns 0 exactly when both are the point-at-infinity or the
cross products of the coordinates agree; for points of different contexts
it returns the cross-context error. -/
theorem cmp_spec {p : ℕ} [Fact p.Prime] (ecp1 ecp2 : EcPoint p)
    (h1 : ecp1.Z = 0 → ecp1.Y ≠ 0) (h2 : ecp2.Z = 0 → ecp2.Y ≠ 0) :
    (ecp1.ctxId = ecp2.ctxId →
        (ec_ws_cmp ecp1 ecp2 = .ok ↔
          (ecp1.Z = 0 ∧ ecp2.Z = 0) ∨
            (ecp1.X * ecp2.Z = ecp2.X * ecp1.Z ∧
              ecp1.Y * ecp2.Z = ecp2.Y * ecp1.Z))) ∧
      (ecp1.ctxId ≠ ecp2.ctxId → ec_ws_cmp ecp1 ecp2 = .errEcCurve) := by
  constructor
  · intro hctx
    rw [ec_ws_cmp, if_neg (by simp [hctx])]
    by_cases hz1 : ecp1.Z = 0 <;> by_cases hz2 : ecp2.Z = 0
    · simp [hz1, hz2]
    · have hne : ¬(ecp1.X * ecp2.Z = ecp2.X * ecp1.Z ∧
          ecp1.Y * ecp2.Z = ecp2.Y * ecp1.Z) := by
        rintro ⟨-, hy⟩
        rw [hz1, mul_zero] at hy
        rcases mul_eq_zero.mp hy with h | h
        · exact h1 hz1 h
        · exact hz2 h
      simp only [hz1, hz2, hne]
      simp [hz1, hz2]
      exact fun _ => h1 hz1
    · have hne : ¬(ecp1.X * ecp2.Z = ecp2.X * ecp1.Z ∧
          ecp1.Y * ecp2.Z = ecp2.Y * ecp1.Z) := by
        rintro ⟨-, hy⟩
        rw [hz2, mul_zero] at hy
        rcases mul_eq_zero.mp hy.symm with h | h
        · exact h2 hz2 h
        · exact hz1 h
      simp only [hz1, hz2, hne]
      simp [hz1, hz2]
      exact fun _ => h2 hz2
    · by_cases hc : ecp1.X * ecp2.Z = ecp2.X * ecp1.Z ∧
          ecp1.Y * ecp2.Z = ecp2.Y * ecp1.Z
      · simp [hz1, hz2, hc]
      · simp [hz1, hz2, hc]
  · intro hctx
    rw [ec_ws_cmp, if_pos hctx]


/-- C5 witness: two same-context representations (1, 2, 1) and (2, 4, 2)
of one point over ZMod 7 compare equal, and the characterization holds. -/
theorem cmp_spec_witness :
    (((⟨5, 1, 2, 1⟩ : EcPoint 7).ctxId = (⟨5, 2, 4, 2⟩ : EcPoint 7).ctxId →
        (ec_ws_cmp (⟨5, 1, 2, 1⟩ : EcPoint 7) ⟨5, 2, 4, 2⟩ = .ok ↔
          ((⟨5, 1, 2, 1⟩ : EcPoint 7).Z = 0 ∧ (⟨5, 2, 4, 2⟩ : EcPoint 7).Z = 0) ∨
            ((⟨5, 1, 2, 1⟩ : EcPoint 7).X * (⟨5, 2, 4, 2⟩ : EcPoint 7).Z =
                (⟨5, 2, 4, 2⟩ : EcPoint 7).X * (⟨5, 1, 2, 1⟩ : EcPoint 7).Z ∧
              (⟨5, 1, 2, 1⟩ : EcPoint 7).Y * (⟨5, 2, 4, 2⟩ : EcPoint 7).Z =
                (⟨5, 2, 4, 2⟩ : EcPoint 7).Y * (⟨5, 1, 2, 1⟩ : EcPoint 7).Z))) ∧
      ((⟨5, 1, 2, 1⟩ : EcPoint 7).ctxId ≠ (⟨5, 2, 4, 2⟩ : EcPoint 7).ctxId →
        ec_ws_cmp (⟨5, 1, 2, 1⟩ : EcPoint 7) ⟨5, 2, 4, 2⟩ = .errEcCurve)) :=
  @cmp_spec 7 ⟨by norm_num⟩ ⟨5, 1, 2, 1⟩ ⟨5, 2, 4, 2⟩ (by decide) (by decide)


/-- C10.  For any two points, even ones of different contexts,
`ec_ws_copy` returns 0 and overwrites the destination's context reference
and all three coordinates with the source's; it never signals the
cross-context error that `ec_ws_add` and `ec_ws_cmp` signal.  Stated for
all pairs of points, so in particular for pairs with distinct `ctxId`. -/
theorem copy_spec {p : ℕ} (ecp1 ecp2 : EcPoint p) :
    ec_ws_copy ecp1 ecp2 =
      (.ok, ⟨ecp2.ctxId, ecp2.X, ecp2.Y, ecp2.Z⟩) := rfl


/-- C6.  `ec_ws_new_point` at (0, 0) succeeds with the projective
point-at-infinity (0, 1, 0); at any other (x, y) it succeeds with
(x, y, 1) exactly when y² = x³ − 3x + b, and otherwise fails with the
off-curve error, leaving no point. -/
theorem new_point_spec {p : ℕ} (b x y : ZMod p) :
    (x = 0 ∧ y = 0 → ec_ws_new_point x y b = .ok ⟨0, 1, 0⟩) ∧
      (¬(x = 0 ∧ y = 0) →
        (y ^ 2 = x ^ 3 - 3 * x + b →
            ec_ws_new_point x y b = .ok ⟨x, y, 1⟩) ∧
          (y ^ 2 ≠ x ^ 3 - 3 * x + b →
            ec_ws_new_point x y b = .error .errEcPoint)) := by
  have key : (y * y = x * x * x - x - x - x + b) ↔
      (y ^ 2 = x ^ 3 - 3 * x + b) := by
    constructor <;> intro h <;> linear_combination h
  constructor
  · intro h
    simp [ec_ws_new_point, h]
  · intro h
    constructor
    · intro hcurve
      rw [ec_ws_new_point, if_neg h]
      simp only [if_pos (key.mpr hcurve)]
    · intro hcurve
      rw [ec_ws_new_point, if_neg h]
      simp only [if_neg (fun hc => hcurve (key.mp hc))]


/-- C6 witness: over ZMod 7 with b = 3, the on-curve input (1, 1) yields
the point (1, 1, 1) and the off-curve input (1, 2) is rejected. -/
theorem new_point_spec_witness :
    ec_ws_new_point (1 : ZMod 7) 1 3 = .ok ⟨1, 1, 1⟩ ∧
      ec_ws_new_point (1 : ZMod 7) 2 3 = .error .errEcPoint :=
  ⟨((new_point_spec 3 1 1).2 (by decide)).1 (by decide),
    ((new_point_spec 3 1 2).2 (by decide)).2 (by decide)⟩


/-- C8 evaluation at the failing input: with a NULL `order` but all other
pointers non-NULL and a nonzero length, `ec_ws_new_context` does not
return the NULL-argument error; it succeeds and builds a context whose
order words are all zero. -/
theorem new_context_null_order_accepted :
    ec_ws_new_context (some ()) (some [7]) (some [3]) none 1 =
      (.ok, some 0) := rfl


/-- Folding the big-endian accumulator from an arbitrary start value. -/
lemma foldl_be_acc (l : List ℕ) (acc : ℕ) :
    List.foldl (fun a byte => 256 * a + byte) acc l =
      acc * 256 ^ l.length + beVal l := by
  induction l generalizing acc with
  | nil => simp [beVal]
  | cons hd tl ih =>
    simp only [beVal, List.foldl_cons, List.length_cons]
    rw [ih, ih]
    ring


/-- The value of a big-endian byte string, one head byte at a time. -/
lemma beVal_cons (hd : ℕ) (tl : List ℕ) :
    beVal (hd :: tl) = hd * 256 ^ tl.length + beVal tl := by
  simp only [beVal, List.foldl_cons]
  rw [foldl_be_acc]
  simp only [beVal]
  ring


/-- Appending a final byte multiplies the prior value by 256. -/
lemma beVal_append_singleton (l : List ℕ) (x : ℕ) :
    beVal (l ++ [x]) = 256 * beVal l + x := by
  simp only [beVal, List.foldl_append, List.foldl_cons, List.foldl_nil]


/-- A string of valid bytes denotes a value below 256 ^ length. -/
lemma beVal_lt (l : List ℕ) (h : ∀ byte ∈ l, byte < 256) :
    beVal l < 256 ^ l.length := by
  induction l with
  | nil => simp [beVal]
  | cons hd tl ih =>
    rw [beVal_cons, List.length_cons]
    have h1 : hd < 256 := h hd (by simp)
    have h2 : beVal tl < 256 ^ tl.length := ih fun b hb => h b (by simp [hb])
    calc hd * 256 ^ tl.length + beVal tl
        < hd * 256 ^ tl.length + 256 ^ tl.length := by omega
      _ = (hd + 1) * 256 ^ tl.length := by ring
      _ ≤ 256 * 256 ^ tl.length := Nat.mul_le_mul_right _ (by omega)
      _ = 256 ^ (tl.length + 1) := by ring


/-- The fixed-width big-endian encoding has exactly the requested width. -/
lemma natToBytesBE_length (n v : ℕ) : (natToBytesBE n v).length = n := by
  induction n generalizing v with
  | zero => rfl
  | succ m ih => simp [natToBytesBE, ih]


/-- Round trip: the value of the fixed-width big-endian encoding of a value
that fits the width is the value itself. -/
lemma beVal_natToBytesBE (n : ℕ) :
    ∀ v : ℕ, v < 256 ^ n → beVal (natToBytesBE n v) = v := by
  induction n with
  | zero =>
    intro v hv
    interval_cases v
    rfl
  | succ m ih =>
    intro v hv
    rw [natToBytesBE, beVal_append_singleton, ih (v / 256)
      ((Nat.div_lt_iff_lt_mul (by norm_num)).mpr (by rw [← pow_succ]; exact hv))]
    exact Nat.div_add_mod v 256


/-- C9.  For a scalar k of valid bytes, a 32-bit factor R, and an order n
below 2^(64·order_words), `blind_scalar_factor` produces a big-endian byte
string of exactly max(order_words, scalar_words) + 2 words whose integer
value is k + R·n (the buffer is wide enough that no truncation occurs). -/
theorem blind_scalar_factor_spec (scalar : List ℕ)
    (hbytes : ∀ byte ∈ scalar, byte < 256) (R order order_words : ℕ)
    (hR : R < 2 ^ 32) (horder : order < 2 ^ (64 * order_words)) :
    (blind_scalar_factor scalar R order order_words).length =
        8 * (max order_words ((scalar.length + 7) / 8) + 2) ∧
      beVal (blind_scalar_factor scalar R order order_words) =
        beVal scalar + R * order := by
  have h2 : (1 : ℕ) ≤ 2 := by norm_num
  set sw := (scalar.length + 7) / 8 with hsw
  set bsw := max (order_words + 2) (sw + 2) with hbsw
  have hmax : bsw = max order_words sw + 2 := by omega
  have hsum : beVal scalar + R * order < 2 ^ (64 * bsw) := by
    have hA : beVal scalar < 2 ^ (64 * max order_words sw + 32) := by
      calc beVal scalar < 256 ^ scalar.length := beVal_lt scalar hbytes
        _ = 2 ^ (8 * scalar.length) := by
            rw [show (256 : ℕ) = 2 ^ 8 from rfl, ← pow_mul]
        _ ≤ 2 ^ (64 * max order_words sw + 32) :=
            Nat.pow_le_pow_right (by norm_num) (by omega)
    have hB : R * order < 2 ^ (64 * max order_words sw + 32) := by
      calc R * order < 2 ^ 32 * 2 ^ (64 * order_words) :=
            mul_lt_mul'' hR horder (Nat.zero_le _) (Nat.zero_le _)
        _ = 2 ^ (32 + 64 * order_words) := by rw [pow_add]
        _ ≤ 2 ^ (64 * max order_words sw + 32) :=
            Nat.pow_le_pow_right (by norm_num) (by omega)
    calc beVal scalar + R * order
        < 2 ^ (64 * max order_words sw + 32) +
            2 ^ (64 * max order_words sw + 32) := add_lt_add hA hB
      _ = 2 ^ (64 * max order_words sw + 33) := by rw [pow_succ]; ring
      _ ≤ 2 ^ (64 * bsw) := Nat.pow_le_pow_right (by norm_num) (by omega)
  have hval : (beVal scalar + R * order) % 2 ^ (64 * bsw) =
      beVal scalar + R * order := Nat.mod_eq_of_lt hsum
  constructor
  · rw [blind_scalar_factor]
    rw [natToBytesBE_length, ← hsw, ← hbsw, hmax]
  · rw [blind_scalar_factor]
    rw [← hsw, ← hbsw, hval]
    refine beVal_natToBytesBE _ _ ?_
    calc beVal scalar + R * order < 2 ^ (64 * bsw) := hsum
      _ = 256 ^ (8 * bsw) := by
          rw [show (256 : ℕ) = 2 ^ 8 from rfl, ← pow_mul]
          ring_nf


/-- C9 witness: blinding the one-byte scalar [1] with R = 3 and the
one-word order 5 yields a 24-byte string of value 1 + 3·5. -/
theorem blind_scalar_factor_spec_witness :
    (blind_scalar_factor [1] 3 5 1).length =
        8 * (max 1 ((([1] : List ℕ).length + 7) / 8) + 2) ∧
      beVal (blind_scalar_factor [1] 3 5 1) = beVal [1] + 3 * 5 :=
  blind_scalar_factor_spec [1] (by decide) 3 5 1 (by decide) (by decide)


/-- C7 counterexample.  On the generator fast path, a scalar whose window
count exceeds the table count makes `ec_ws_scalar` return a nonzero code
while the point's stored coordinates are no longer those it had on entry:
the fast path overwrites them with the point-at-infinity before the window
count is checked. -/
theorem scalar_error_mutation_counterexample :
    (ec_ws_scalar ctxP256test ⟨9, 1, 2, 1⟩ [17] 0).1 ≠ .ok ∧
      (ec_ws_scalar ctxP256test ⟨9, 1, 2, 1⟩ [17] 0).2 ≠ ⟨9, 1, 2, 1⟩ := by
  decide


/-- C7 amended.  If `ec_ws_scalar` returns a nonzero code, the point's
coordinates are exactly as on entry — except on the P-256 generator fast
path, where a scalar with more windows than `p256_n_tables` yields
`ERR_VALUE` with the coordinates overwritten by the canonical
point-at-infinity (0, 1, 0). -/
theorem scalar_error_mutation_amended {p : ℕ} (ctx : EcContext p)
    (ecp : EcPoint p) (k : List ℕ) (seed : ℕ)
    (h : (ec_ws_scalar ctx ecp k seed).1 ≠ .ok) :
    (ec_ws_scalar ctx ecp k seed).2 = ecp ∨
      ((ec_ws_scalar ctx ecp k seed).1 = .errValue ∧
        (ec_ws_scalar ctx ecp k seed).2 =
          { ecp with X := 0, Y := 1, Z := 0 }) := by
  simp only [ec_ws_scalar] at h ⊢
  split_ifs at h ⊢ with h1 h2 h3
  · exact Or.inl rfl
  · simp only [ec_scalar_g_p256] at h ⊢
    by_cases hov :
        (bitWindowRL ctx.p256WindowSize (beVal k)).length > ctx.p256NTables
    · rw [if_pos hov] at h ⊢
      exact Or.inr ⟨rfl, rfl⟩
    · rw [if_neg hov] at h
      exact absurd rfl h
  · exact absurd rfl h
  · exact absurd rfl h


/-- C7 witness: the amended statement at the fast-path overflow input. -/
theorem scalar_error_mutation_amended_witness :
    (ec_ws_scalar ctxP256test ⟨9, 1, 2, 1⟩ [17] 0).2 = ⟨9, 1, 2, 1⟩ ∨
      ((ec_ws_scalar ctxP256test ⟨9, 1, 2, 1⟩ [17] 0).1 = .errValue ∧
        (ec_ws_scalar ctxP256test ⟨9, 1, 2, 1⟩ [17] 0).2 =
          { (⟨9, 1, 2, 1⟩ : EcPoint 7) with X := 0, Y := 1, Z := 0 }) :=
  scalar_error_mutation_amended ctxP256test ⟨9, 1, 2, 1⟩ [17] 0 (by decide)


end ECWS
